import Mathlib

/-!
Verification of the LanguageTool plugin core: the annotated-text protocol
(`src/annotated.ts`), the markdown-to-segments converter (`src/markdown.ts`),
the underline decoration state fields (`src/cm6/underlineStateField.ts`),
the detection-result application (`src/main.ts`), and the dictionary set
algebra (`src/helpers.ts`).  JavaScript strings are modelled as `List Char`,
JavaScript `Set`s as lists with membership semantics, and the CodeMirror
position-mapping primitive as an explicit single-replacement edit.
-/

namespace LTPlugin

/-- JavaScript strings are modelled as lists of characters. -/
abbrev Str := List Char

/-! ## The AnnotatedText data model (src/annotated.ts)

The TypeScript type is `Annotation = { text: string } | { markup: string,
interpretAs?: string }`; here the two variants are the two constructors of
`Segment` (the spec's name for the same tagged union). -/

/-- One entry of `AnnotatedText.annotations`: either plain text or markup
with an optional interpretation. -/
inductive Segment where
  | text (s : Str)
  | markup (m : Str) (interpretAs : Option Str)
deriving DecidableEq, Repr

/-- Source length of a segment: `text.length` for text, `markup.length`
(the raw source text) for markup. -/
def Segment.srcLen : Segment → Nat
  | .text s => s.length
  | .markup m _ => m.length

/-- Sum of the segments' source lengths. -/
def srcLen (segs : List Segment) : Nat := (segs.map Segment.srcLen).sum

/-- Interpreted content of a segment: the text itself, or `interpretAs ?? ""`
for markup. -/
def Segment.interp : Segment → Str
  | .text s => s
  | .markup _ ia => ia.getD []

/-- The flattened interpreted stream: concatenation of every segment's
interpreted content.  This is what the checking service sees. -/
def interp (segs : List Segment) : Str := (segs.map Segment.interp).flatten

/-- Sum of the segments' interpreted lengths. -/
def interpLen (segs : List Segment) : Nat := (interp segs).length

/-- `AnnotatedText.length` from src/annotated.ts: a reduce that adds
`a.text.length` for text entries and `a.markup.length` for markup entries. -/
def lengthA (segs : List Segment) : Nat :=
  segs.foldl (fun acc a =>
    match a with
    | .text s => acc + s.length
    | .markup m _ => acc + m.length) 0

/-- The skip condition of `optimize`: a text of length 0, or a markup of
length 0 whose `interpretAs` is undefined. -/
def Segment.isEmptySeg : Segment → Bool
  | .text s => s.isEmpty
  | .markup m ia => m.isEmpty && ia.isNone

/-- One step of `optimize`, acting on the reversed output list (the head is
the element `output.at(-1)` that the TypeScript code mutates in place):
merge two texts, or two markups when the earlier one has no `interpretAs`. -/
def optPush (out : List Segment) (a : Segment) : List Segment :=
  match out, a with
  | .text t :: rest, .text s => .text (t ++ s) :: rest
  | .markup m none :: rest, .markup m2 ia2 => .markup (m ++ m2) ia2 :: rest
  | _, _ => a :: out

/-- The body of the `optimize` loop: skip empty segments, otherwise merge
with the last output element when compatible. -/
def optStep (out : List Segment) (a : Segment) : List Segment :=
  if a.isEmptySeg then out else optPush out a

/-- `AnnotatedText.optimize` from src/annotated.ts, with the output built in
reverse and flipped at the end. -/
def optimize (segs : List Segment) : List Segment :=
  (segs.foldl optStep []).reverse

/-- Whether two adjacent segments (in output order: `a` before `b`) would be
merged by `optimize`. -/
def mergeable : Segment → Segment → Bool
  | .text _, .text _ => true
  | .markup _ none, .markup _ _ => true
  | _, _ => false

/-- Whether the head of a reversed accumulator could still merge with the
next element below it (`b` is earlier than `a` in output order). -/
def headOk : Segment → List Segment → Bool
  | _, [] => true
  | a, b :: _ => !mergeable b a

/-- Invariant of the reversed accumulator of `optimize`: no empty segments,
no adjacent pair (in output order) that is still mergeable. -/
def wfR : List Segment → Bool
  | [] => true
  | a :: rest => !a.isEmptySeg && headOk a rest && wfR rest

/-- The content a segment contributes in the first loop of `extractSlice`:
`"text" in annotation ? annotation.text : annotation.markup`. -/
def Segment.content : Segment → Str
  | .text s => s
  | .markup m _ => m

/-- JavaScript whitespace for `String.trim` (the ASCII part; the inputs in
this development contain no exotic unicode spaces). -/
def isWs (c : Char) : Bool :=
  c = ' ' || c = '\t' || c = '\n' || c = '\r' || c = '\x0b' || c = '\x0c'

/-- JavaScript `String.trim`. -/
def trim (s : Str) : Str := ((s.dropWhile isWs).reverse.dropWhile isWs).reverse

/-- JavaScript `String.slice(f, t)` for non-negative in-range arguments. -/
def jsSlice (s : Str) (f t : Nat) : Str := (s.drop f).take (t - f)

/-- The first loop of `extractSlice`: skip leading segments while
`content.length < from`, shifting both offsets down. -/
def skipLoop : List Segment → Nat → Nat → List Segment × Nat × Nat
  | [], f, t => ([], f, t)
  | a :: rest, f, t =>
    if a.content.length < f then
      skipLoop rest (f - a.content.length) (t - a.content.length)
    else (a :: rest, f, t)

/-- The second loop of `extractSlice`: accumulate interpreted text; markup
shifts the offsets down by `markup.length` (clamped as by `Math.max`) and
lengthens `to` by the interpretation's length; return the trimmed slice as
soon as the accumulated text reaches `to`.  (`Math.max` applied to a
possibly negative JavaScript difference agrees with truncated `Nat`
subtraction here, since the other argument is non-negative.) -/
def sliceLoop : List Segment → Str → Nat → Nat → Option Str
  | [], _, _, _ => none
  | a :: rest, text, f, t =>
    match a with
    | .text s =>
      let text := text ++ s
      if t ≤ text.length then some (trim (jsSlice text f t))
      else sliceLoop rest text f t
    | .markup m ia =>
      let f' := max text.length (f - m.length)
      let t' := max f' (t - m.length) + (ia.getD []).length
      let text := text ++ ia.getD []
      if t' ≤ text.length then some (trim (jsSlice text f' t'))
      else sliceLoop rest text f' t'

/-- `AnnotatedText.extractSlice` from src/annotated.ts. -/
def extractSlice (segs : List Segment) (f t : Nat) : Option Str :=
  match skipLoop segs f t with
  | (rest, f, t) => sliceLoop rest [] f t

/-- Whether a segment is a text segment. -/
def Segment.isText : Segment → Bool
  | .text _ => true
  | .markup _ _ => false

/-! ## The markdown converter (src/markdown.ts)

`toAnnotated` walks a list of mdast nodes carrying source positions and
appends segments to the output.  The node kinds are exactly the cases of the
TypeScript switch; `hardBreak` stands for the mdast type `"break"` and `del`
for `"delete"` (both Lean keywords). -/

/-- The mdast node types dispatched by `toAnnotated`. -/
inductive Kind where
  | text | yaml | code | html | image | imageReference | footnoteReference
  | definition | strong | emphasis | del | footnoteDefinition | linkReference
  | list | heading | inlineCode | blockquote | hardBreak | paragraph
  | listItem | link | table | tableRow | tableCell | thematicBreak
deriving DecidableEq, Repr

/-- The parts of a unist `Position` the converter reads: `start.offset`,
`end.offset` and `start.column` (1-based). -/
structure MdPos where
  startOff : Nat
  endOff : Nat
  startCol : Nat
deriving DecidableEq, Repr

/-- An mdast node: kind, position, `value` (used by text and inlineCode
nodes, empty otherwise) and children. -/
inductive Md where
  | node (kind : Kind) (pos : MdPos) (value : Str) (children : List Md)
deriving Repr

/-- Start column of a node (`position.start.column`). -/
def Md.col : Md → Nat
  | .node _ p _ _ => p.startCol

/-- A run of `n` spaces, as produced by `" ".repeat(n)` and `emptyMarkup`. -/
def spaces (n : Nat) : Str := List.replicate n ' '

/-- JavaScript `value.split("\n")`. -/
def splitNL : Str → List Str
  | [] => [[]]
  | c :: rest =>
    if c = '\n' then [] :: splitNL rest
    else
      match splitNL rest with
      | l :: ls => (c :: l) :: ls
      | [] => [[c]]

/-- The inner helper `addLines` of the text case: first line as text, every
further line preceded by an indent-wide markup and pushed as newline plus
line. -/
def addLines (text : Str) (indent : Nat) : List Segment :=
  match splitNL text with
  | [] => []
  | first :: rem =>
    Segment.text first ::
      rem.flatMap (fun line => [.markup (spaces indent) none, .text ('\n' :: line)])

/-- The character class that `[[:punct:]` denotes inside an ECMAScript
regular expression: POSIX classes are not supported there, so it is the
plain class of the characters between the brackets. -/
def punctClassChars : Str := "[:punct".data

/-- Indices of the matches of the JavaScript regex `/\\[[:punct:]]/g` in a
string: a backslash, one character of `punctClassChars`, then a literal
closing bracket; `matchAll` resumes after each (three-character) match. -/
def findEsc : Str → Nat → List Nat
  | '\\' :: c :: ']' :: rest, i =>
    if punctClassChars.contains c then i :: findEsc rest (i + 3)
    else findEsc (c :: ']' :: rest) (i + 1)
  | _ :: rest, i => findEsc rest (i + 1)
  | [], _ => []

/-- The escape branch of the text case: between matches emit the literal
text (line-split), then a one-source-character markup with empty
interpretation for the backslash and the following character as text;
`offset` resumes two characters after each match start. -/
def escSegs (slice : Str) (indent : Nat) : List Segment :=
  let step := fun (acc : Nat × List Segment) (st : Nat) =>
    (st + 2,
      acc.2 ++ addLines (jsSlice slice acc.1 st) indent ++
        [.markup (spaces 1) (some []), .text (jsSlice slice (st + 1) (st + 2))])
  let r := (findEsc slice 0).foldl step (0, [])
  r.2 ++ addLines (slice.drop r.1) indent

/-- One zero-source-length markup with the given interpretation, as pushed
by `output.pushMarkup("", s)`. -/
def mk0 (s : Str) : Segment := .markup [] (some s)

/-- `toAnnotated` from src/markdown.ts, returning the updated cursor and the
emitted segments (`none` models the thrown length error).  The padding step
is shared by all kinds; `max off start` is the cursor after it (the code
only moves the cursor when it is before the node start).  The empty `link`
else-branch of the source is dead code, because an empty mdast `children`
array is still truthy in JavaScript, so `link` always recurses. -/
def annList (raw : Str) : List Md → Nat → Nat → Option (Nat × List Segment)
  | [], off, _ => some (off, [])
  | .node k p value children :: rest, off, indent =>
    let pad : List Segment :=
      if off < p.startOff then [.markup (spaces (p.startOff - off)) none] else []
    let off1 := max off p.startOff
    let step : Option (Nat × List Segment) :=
      match k with
      | .text =>
        let textLen : Int := value.length + ((splitNL value).length - 1) * indent
        let nodeLen : Int := (p.endOff : Int) - (p.startOff : Int)
        if textLen < nodeLen then
          some (p.endOff, escSegs (jsSlice raw p.startOff p.endOff) indent)
        else if nodeLen < textLen then none
        else some (p.endOff, addLines value indent)
      | .yaml | .code | .html | .image | .imageReference | .footnoteReference
      | .definition => some (off1, [])
      | .strong | .emphasis | .del | .footnoteDefinition | .linkReference =>
        annList raw children off1 indent
      | .list | .heading =>
        match annList raw children off1 indent with
        | some (o, segs) => some (o, segs ++ [mk0 "\n\n".data])
        | none => none
      | .inlineCode =>
        some (p.endOff, [.markup (spaces (p.endOff - p.startOff)) (some value)])
      | .blockquote =>
        match children with
        | [] => some (off1, [])
        | c0 :: cs => annList raw (c0 :: cs) off1 (c0.col - 1)
      | .hardBreak =>
        some (p.endOff, [.markup (spaces (p.endOff - p.startOff)) (some "\n".data)])
      | .paragraph =>
        match children with
        | [] => some (off1, [mk0 "\n\n".data])
        | c0 :: cs =>
          match annList raw (c0 :: cs) off1 (c0.col - 1) with
          | some (o, segs) => some (o, mk0 "\n\n".data :: segs ++ [mk0 "\n\n".data])
          | none => none
      | .listItem =>
        match children with
        | [] => some (off1, [])
        | c0 :: cs =>
          match annList raw (c0 :: cs) off1 (c0.col - 1) with
          | some (o, segs) => some (o, mk0 "• ".data :: segs)
          | none => none
      | .link => annList raw children off1 indent
      | .table =>
        match annList raw children off1 indent with
        | some (o, segs) => some (o, mk0 "\n".data :: segs)
        | none => none
      | .tableRow =>
        match annList raw children off1 indent with
        | some (o, segs) => some (o, segs ++ [mk0 "\n\n".data])
        | none => none
      | .tableCell =>
        match annList raw children off1 indent with
        | some (o, segs) => some (o, segs ++ [mk0 "\n".data])
        | none => none
      | .thematicBreak =>
        some (p.endOff, [.markup (spaces (p.endOff - p.startOff)) (some "\n\n".data)])
    match step with
    | none => none
    | some (off2, segs) =>
      match annList raw rest off2 indent with
      | none => none
      | some (off3, segs2) => some (off3, pad ++ (segs ++ segs2))
termination_by l _ _ => sizeOf l
decreasing_by all_goals (simp_wf <;> omega)

/-- Position sanity dry run for `annList`: every node starts at or after the
cursor, spans are non-negative, and every text node renders exactly its span
(no escape shrinkage); returns the final cursor.  It mirrors the cursor
movement of `annList` but emits nothing and reads no raw source. -/
def wfRun : List Md → Nat → Nat → Option Nat
  | [], off, _ => some off
  | .node k p value children :: rest, off, indent =>
    if off ≤ p.startOff then
      let step : Option Nat :=
        match k with
        | .text =>
          if p.startOff ≤ p.endOff ∧
              value.length + ((splitNL value).length - 1) * indent
                = p.endOff - p.startOff then
            some p.endOff
          else none
        | .yaml | .code | .html | .image | .imageReference | .footnoteReference
        | .definition => some p.startOff
        | .strong | .emphasis | .del | .footnoteDefinition | .linkReference =>
          wfRun children p.startOff indent
        | .list | .heading => wfRun children p.startOff indent
        | .inlineCode =>
          if p.startOff ≤ p.endOff then some p.endOff else none
        | .blockquote =>
          match children with
          | [] => some p.startOff
          | c0 :: cs => wfRun (c0 :: cs) p.startOff (c0.col - 1)
        | .hardBreak =>
          if p.startOff ≤ p.endOff then some p.endOff else none
        | .paragraph =>
          match children with
          | [] => some p.startOff
          | c0 :: cs => wfRun (c0 :: cs) p.startOff (c0.col - 1)
        | .listItem =>
          match children with
          | [] => some p.startOff
          | c0 :: cs => wfRun (c0 :: cs) p.startOff (c0.col - 1)
        | .link => wfRun children p.startOff indent
        | .table => wfRun children p.startOff indent
        | .tableRow => wfRun children p.startOff indent
        | .tableCell => wfRun children p.startOff indent
        | .thematicBreak =>
          if p.startOff ≤ p.endOff then some p.endOff else none
      match step with
      | none => none
      | some off2 => wfRun rest off2 indent
    else none
termination_by l _ _ => sizeOf l
decreasing_by all_goals (simp_wf <;> omega)

/-! ## The decoration state fields (src/cm6/underlineStateField.ts)

The state fields are CodeMirror `StateField`s; their `update` functions are
modelled as explicit state transformers.  A transaction carries at most one
replacement edit (`changes`), the main selection after the transaction, the
old document length and the dispatched effects.  The CodeMirror position
mapping for a single replacement (old range `fromA..toA` replaced by
`insLen` characters) leaves positions before the change alone, shifts
positions after it by the net length delta, and collapses positions inside
the replaced span to its start; a mark range whose image collapses to the
empty range is dropped by `DecorationSet.map`.  The `syntaxTree` structural
classification (`canDecorate`) and the rule/dictionary filter
(`isRuleAllowed`) consult editor state outside this model and are passed in
as oracles. -/

/-- The range record of the state field module (fields `from` and `to`,
renamed because `from` is a Lean keyword). -/
structure LTRange where
  rfrom : Nat
  rto : Nat
deriving DecidableEq, Repr

/-- The parts of an `LTMatch` the state field reads. -/
structure LTMatch where
  mfrom : Nat
  mto : Nat
  categoryId : Str
  ruleId : Str
  mtext : Str
deriving DecidableEq, Repr

/-- `rangeOverlapping` from src/cm6/underlineStateField.ts: inclusive
endpoint-in-span test, symmetric in its arguments. -/
def rangeOverlapping (first second : LTRange) : Bool :=
  decide (first.rfrom ≤ second.rfrom ∧ second.rfrom ≤ first.rto ∨
    first.rfrom ≤ second.rto ∧ second.rto ≤ first.rto ∨
    second.rfrom ≤ first.rfrom ∧ first.rfrom ≤ second.rto ∨
    second.rfrom ≤ first.rto ∧ first.rto ≤ second.rto)

/-- A single replacement edit: the old-document range `fromA..toA` is
replaced by `insLen` new characters. -/
structure Edit where
  fromA : Nat
  toA : Nat
  insLen : Nat
deriving DecidableEq, Repr

/-- CodeMirror position mapping through a single replacement. -/
def mapPos (e : Edit) (pos : Nat) : Nat :=
  if pos ≤ e.fromA then pos
  else if e.toA ≤ pos then e.fromA + e.insLen + (pos - e.toA)
  else e.fromA

/-- Document length after applying the edit to a document of length
`oldLen`. -/
def editNewLen (e : Edit) (oldLen : Nat) : Nat :=
  oldLen - (e.toA - e.fromA) + e.insLen

/-- Image of a range under the position mapping. -/
def mapRange (e : Edit) (r : LTRange) : LTRange :=
  ⟨mapPos e r.rfrom, mapPos e r.rto⟩

/-- `DecorationSet.map`: map every mark range, dropping those that collapse
to an empty range. -/
def mapRanges (e : Option Edit) (rs : List LTRange) : List LTRange :=
  match e with
  | none => rs
  | some e => (rs.map (mapRange e)).filter (fun r => decide (r.rfrom < r.rto))

/-- A stored underline decoration: its range and the `LTMatch` kept in the
decoration spec. -/
structure Underline where
  rng : LTRange
  data : LTMatch
deriving DecidableEq, Repr

/-- `DecorationSet.map` for underlines (the match payload is untouched). -/
def mapUnderlines (e : Option Edit) (us : List Underline) : List Underline :=
  match e with
  | none => us
  | some e =>
    (us.map (fun u => { u with rng := mapRange e u.rng })).filter
      (fun u => decide (u.rng.rfrom < u.rng.rto))

/-- The effects dispatched to the two state fields (the names of the older
version of the module, which is the one carrying `ignoreUnderline` and the
`ignoredRanges` set). -/
inductive Effect where
  | addUnderline (m : LTMatch)
  | clearUnderlines
  | clearUnderlinesInRange (r : LTRange)
  | ignoreUnderline (r : LTRange)
deriving DecidableEq, Repr

/-- A transaction as seen by the state fields: at most one replacement edit
(`none` means `docChanged` is false), the main selection after the
transaction (CodeMirror transactions need not carry one), the length of the
old document and the effects. -/
structure Tr where
  edit : Option Edit
  selection : Option LTRange
  oldLen : Nat
  effects : List Effect
deriving Repr

/-- `tr.newDoc.length`. -/
def Tr.newLen (tr : Tr) : Nat :=
  match tr.edit with
  | none => tr.oldLen
  | some e => editNewLen e tr.oldLen

/-- The key `from,to` that the state fields store in their string sets; the
string encoding is injective, so the pair itself is used. -/
def rkey (r : LTRange) : Nat × Nat := (r.rfrom, r.rto)

/-- `Set.add` of a JavaScript `Set`: appends only when absent. -/
def addKey (l : List (Nat × Nat)) (k : Nat × Nat) : List (Nat × Nat) :=
  if l.contains k then l else l ++ [k]

/-- The environment of `underlineField.update` that lives outside the field:
the `ignoredRanges` of the ignored-underline field read at the start of the
update, the syntax-tree classification `canDecorate`, and the remainder of
`isRuleAllowed` (dictionary and table-whitespace checks). -/
structure UpdateCtx where
  ignoredRanges : List (Nat × Nat)
  canDecorate : Nat → Bool
  ruleAllowed : LTMatch → Bool

/-- The effect loop of `underlineField.update`: state is the underline list
and the `seenRanges` set of keys added in this update cycle. -/
def applyEffect (ctx : UpdateCtx) (st : List Underline × List (Nat × Nat))
    (e : Effect) : List Underline × List (Nat × Nat) :=
  match e with
  | .addUnderline m =>
    let key := (m.mfrom, m.mto)
    if ¬ ctx.ignoredRanges.contains key ∧ ¬ st.2.contains key ∧
        ctx.canDecorate m.mfrom ∧ ctx.canDecorate m.mto ∧ ctx.ruleAllowed m then
      (st.1 ++ [⟨⟨m.mfrom, m.mto⟩, m⟩], st.2 ++ [key])
    else st
  | .clearUnderlines => ([], st.2)
  | .clearUnderlinesInRange r =>
    (st.1.filter (fun u => ¬ rangeOverlapping u.rng r), st.2)
  | .ignoreUnderline r =>
    (st.1.filter (fun u => ¬ rangeOverlapping u.rng r), st.2)

/-- `underlineField.update`: map the stored underlines through the change,
drop every underline overlapping the selection when the document changed
with a selection present and the set is non-empty, then run the effects. -/
def underlineUpdate (ctx : UpdateCtx) (us : List Underline) (tr : Tr) :
    List Underline :=
  let us := mapUnderlines tr.edit us
  let us :=
    if tr.edit.isSome ∧ tr.selection.isSome ∧ us ≠ [] then
      match tr.selection with
      | some sel => us.filter (fun u => ¬ rangeOverlapping u.rng sel)
      | none => us
    else us
  (tr.effects.foldl (applyEffect ctx) (us, [])).1

/-- The state of `ignoredUnderlineField`: the mark decoration set and the
string set of keys `from,to`. -/
structure IgnoredState where
  marks : List LTRange
  ignoredRanges : List (Nat × Nat)
deriving DecidableEq, Repr

/-- The effect loop body of `ignoredUnderlineField.update`: an
`ignoreUnderline` effect adds its range to the marks and its key to the
string set; the other effects are not handled by this field. -/
def ignoredEffStep (st : IgnoredState) (e : Effect) : IgnoredState :=
  match e with
  | .ignoreUnderline r =>
    ⟨st.marks ++ [r], addKey st.ignoredRanges (rkey r)⟩
  | _ => st

/-- `ignoredUnderlineField.update`: map the marks, rebuild `ignoredRanges`
from the marks found between 0 and the new document length, drop marks
overlapping the selection (deleting their keys) when the document changed
with a selection present and marks exist, then apply `ignoreUnderline`
effects to both representations. -/
def ignoredUpdate (st : IgnoredState) (tr : Tr) : IgnoredState :=
  let marks := mapRanges tr.edit st.marks
  let ignored :=
    ((marks.filter (fun r => decide (r.rfrom ≤ tr.newLen))).map rkey)
  let removed :=
    if tr.edit.isSome ∧ tr.selection.isSome ∧ marks ≠ [] then
      match tr.selection with
      | some sel => marks.filter (fun r => rangeOverlapping r sel)
      | none => []
    else []
  let marks :=
    if tr.edit.isSome ∧ tr.selection.isSome ∧ marks ≠ [] then
      match tr.selection with
      | some sel => marks.filter (fun r => ¬ rangeOverlapping r sel)
      | none => marks
    else marks
  let ignored := ignored.filter (fun k => ¬ (removed.map rkey).contains k)
  tr.effects.foldl ignoredEffStep ⟨marks, ignored⟩

/-! ## Application of detection results (src/main.ts, `runDetection`)

After a check returns, `runDetection` builds the effect list: one clearing
effect (range-scoped or global), then one `addUnderline` per match that is
neither beyond the current document end nor a dictionary-listed typo.  The
newer module version used here has a distinct effect vocabulary. -/

/-- The effects used by `runDetection` (the newer module version, where the
global clear is named `clearAllUnderlines`). -/
inductive MainEffect where
  | addUnderline (m : LTMatch)
  | clearAllUnderlines
  | clearUnderlinesInRange (r : LTRange)
deriving DecidableEq, Repr

/-- The effect list `runDetection` dispatches, given the checked range (if
any), the current document length, the spellcheck dictionary and the
returned matches. -/
def runDetectionEffects (rng : Option LTRange) (docLen : Nat)
    (dict : List Str) (ms : List LTMatch) : List MainEffect :=
  let effects : List MainEffect :=
    match rng with
    | some r => [.clearUnderlinesInRange r]
    | none => [.clearAllUnderlines]
  effects ++ ms.foldl (fun acc m =>
    if docLen < m.mto then acc
    else if m.categoryId = "TYPOS".data ∧ dict.contains m.mtext then acc
    else acc ++ [.addUnderline m]) []

/-! ## Dictionary set algebra (src/helpers.ts) and reconciliation

JavaScript `Set<string>`s are modelled as duplicate-free lists; the three
set operations mirror the loops of src/helpers.ts (iteration order of the
first and second operand respectively). -/

/-- `setDifference`: copy of A, with every element of B deleted. -/
def setDifference (a b : List Str) : List Str :=
  a.filter (fun x => ¬ b.contains x)

/-- `setUnion`: copy of A, with every element of B added in turn. -/
def setUnion (a b : List Str) : List Str :=
  b.foldl (fun u x => if u.contains x then u else u ++ [x]) a

/-- `setIntersect`: the elements of B contained in A. -/
def setIntersect (a b : List Str) : List Str :=
  b.filter (fun x => a.contains x)

/-- Modelled from the spec: the three-way dictionary merge of
`syncDictionary` is not part of the sources here (src/settings.ts only calls
`plugin.syncDictionary()`); the five steps follow the spec's §4.5, using the
set operations of src/helpers.ts.  Returns the words to delete remotely, the
words to add remotely, and the merged set that becomes the new local and
last-synced sets. -/
def reconcile (localWords lastSynced remote : List Str) :
    List Str × List Str × List Str :=
  let localRemoved := setIntersect (setDifference lastSynced localWords) remote
  let remoteRemoved := setDifference lastSynced remote
  let remoteWorking := setDifference remote localRemoved
  let localWorking := setDifference localWords remoteRemoved
  let missingRemote := setDifference localWorking remoteWorking
  let merged := setUnion remoteWorking localWorking
  (localRemoved, missingRemote, merged)

/-! ## Basic lemmas about segment lists -/

theorem srcLen_append (l1 l2 : List Segment) :
    srcLen (l1 ++ l2) = srcLen l1 + srcLen l2 := by
  simp [srcLen]

theorem interp_append (l1 l2 : List Segment) :
    interp (l1 ++ l2) = interp l1 ++ interp l2 := by
  simp [interp]

theorem srcLen_reverse (l : List Segment) : srcLen l.reverse = srcLen l := by
  simp [srcLen, List.sum_reverse]

theorem lengthA_go (segs : List Segment) :
    ∀ acc, segs.foldl (fun acc a =>
      match a with
      | .text s => acc + s.length
      | .markup m _ => acc + m.length) acc = acc + srcLen segs := by
  induction segs with
  | nil => simp [srcLen]
  | cons a rest ih =>
    intro acc
    cases a <;> simp [srcLen, Segment.srcLen, ih] <;> omega

theorem lengthA_eq (segs : List Segment) : lengthA segs = srcLen segs := by
  simpa [lengthA] using lengthA_go segs 0

/-! ## Lemmas about optimize -/

theorem interp_empty_seg (a : Segment) (h : a.isEmptySeg = true) :
    a.interp = [] := by
  cases a with
  | text s => cases s <;> simp_all [Segment.isEmptySeg, Segment.interp]
  | markup m ia =>
    cases ia <;> simp_all [Segment.isEmptySeg, Segment.interp]

theorem srcLen_empty_seg (a : Segment) (h : a.isEmptySeg = true) :
    a.srcLen = 0 := by
  cases a with
  | text s => cases s <;> simp_all [Segment.isEmptySeg, Segment.srcLen]
  | markup m ia =>
    cases m <;> simp_all [Segment.isEmptySeg, Segment.srcLen]

theorem interp_optStep (out : List Segment) (a : Segment) :
    interp (optStep out a).reverse = interp out.reverse ++ a.interp := by
  by_cases h : a.isEmptySeg
  · simp [optStep, h, interp_empty_seg a h]
  · simp only [optStep, h, if_neg, Bool.not_eq_true]
    match out, a with
    | [], a => simp [optPush, interp, Segment.interp]
    | .text t :: rest, .text s =>
      simp [optPush, interp_append, interp, Segment.interp]
    | .text t :: rest, .markup m2 ia2 =>
      simp [optPush, interp_append, interp, Segment.interp]
    | .markup m none :: rest, .markup m2 ia2 =>
      simp [optPush, interp_append, interp, Segment.interp]
    | .markup m (some ia) :: rest, .markup m2 ia2 =>
      simp [optPush, interp_append, interp, Segment.interp]
    | .markup m ia :: rest, .text s =>
      simp [optPush, interp_append, interp, Segment.interp]

theorem srcLen_optStep (out : List Segment) (a : Segment) :
    srcLen (optStep out a) = srcLen out + a.srcLen := by
  by_cases h : a.isEmptySeg
  · simp [optStep, h, srcLen_empty_seg a h]
  · simp only [optStep, h, if_neg, Bool.not_eq_true]
    match out, a with
    | [], a => simp [optPush, srcLen, Segment.srcLen] <;> omega
    | .text t :: rest, .text s =>
      simp [optPush, srcLen, Segment.srcLen] <;> omega
    | .text t :: rest, .markup m2 ia2 =>
      simp [optPush, srcLen, Segment.srcLen] <;> omega
    | .markup m none :: rest, .markup m2 ia2 =>
      simp [optPush, srcLen, Segment.srcLen] <;> omega
    | .markup m (some ia) :: rest, .markup m2 ia2 =>
      simp [optPush, srcLen, Segment.srcLen] <;> omega
    | .markup m ia :: rest, .text s =>
      simp [optPush, srcLen, Segment.srcLen] <;> omega

theorem interp_optFold (l : List Segment) :
    ∀ out, interp (l.foldl optStep out).reverse
      = interp out.reverse ++ interp l := by
  induction l with
  | nil => simp [interp]
  | cons a l ih =>
    intro out
    have : interp (a :: l) = a.interp ++ interp l := by simp [interp]
    rw [List.foldl_cons, ih, interp_optStep, this, List.append_assoc]

theorem srcLen_optFold (l : List Segment) :
    ∀ out, srcLen (l.foldl optStep out) = srcLen out + srcLen l := by
  induction l with
  | nil => simp [srcLen]
  | cons a l ih =>
    intro out
    have : srcLen (a :: l) = a.srcLen + srcLen l := by simp [srcLen]
    rw [List.foldl_cons, ih, srcLen_optStep, this]
    omega

theorem mergeable_text (b : Segment) (x y : Str) :
    mergeable b (.text x) = mergeable b (.text y) := by
  cases b with
  | text _ => rfl
  | markup m ia => cases ia <;> rfl

theorem mergeable_markup (b : Segment) (x y : Str) (ia ia' : Option Str) :
    mergeable b (.markup x ia) = mergeable b (.markup y ia') := by
  cases b with
  | text _ => rfl
  | markup m i => cases i <;> rfl

theorem optPush_of_not_mergeable (b a : Segment) (rest : List Segment)
    (h : mergeable b a = false) : optPush (b :: rest) a = a :: b :: rest := by
  cases b with
  | text t =>
    cases a with
    | text s => simp [mergeable] at h
    | markup m2 ia2 => rfl
  | markup m ia =>
    cases ia with
    | none =>
      cases a with
      | text s => rfl
      | markup m2 ia2 => simp [mergeable] at h
    | some i =>
      cases a with
      | text s => rfl
      | markup m2 ia2 => rfl

theorem wfR_tail (a : Segment) (rest : List Segment)
    (h : wfR (a :: rest) = true) :
    a.isEmptySeg = false ∧ headOk a rest = true ∧ wfR rest = true := by
  simp only [wfR, Bool.and_eq_true, Bool.not_eq_true'] at h
  exact ⟨h.1.1, h.1.2, h.2⟩

theorem wfR_optStep (out : List Segment) (a : Segment)
    (h : wfR out = true) : wfR (optStep out a) = true := by
  by_cases he : a.isEmptySeg
  · simpa [optStep, he] using h
  · have he' : a.isEmptySeg = false := by simpa using he
    simp only [optStep, he', Bool.false_eq_true, if_false]
    match out, a with
    | [], a => simp [optPush, wfR, headOk, he']
    | .text t :: rest, .text s =>
      obtain ⟨h1, h2, h3⟩ := wfR_tail _ _ h
      have ht : t ≠ [] := by
        cases t <;> simp_all [Segment.isEmptySeg]
      have : Segment.isEmptySeg (.text (t ++ s)) = false := by
        cases t <;> simp_all [Segment.isEmptySeg]
      simp only [optPush, wfR]
      cases rest with
      | nil => simp [wfR, headOk, this]
      | cons b r2 =>
        have : headOk (Segment.text (t ++ s)) (b :: r2)
            = headOk (Segment.text t) (b :: r2) := by
          simp [headOk, mergeable_text b (t ++ s) t]
        simp_all [wfR, headOk]
    | .markup m none :: rest, .markup m2 ia2 =>
      obtain ⟨h1, h2, h3⟩ := wfR_tail _ _ h
      have hm : m ≠ [] := by
        cases m <;> simp_all [Segment.isEmptySeg]
      have : Segment.isEmptySeg (.markup (m ++ m2) ia2) = false := by
        cases m <;> simp_all [Segment.isEmptySeg]
      simp only [optPush, wfR]
      cases rest with
      | nil => simp [wfR, headOk, this]
      | cons b r2 =>
        have : headOk (Segment.markup (m ++ m2) ia2) (b :: r2)
            = headOk (Segment.markup m none) (b :: r2) := by
          simp [headOk, mergeable_markup b (m ++ m2) m ia2 none]
        simp_all [wfR, headOk]
    | .text t :: rest, .markup m2 ia2 =>
      simp_all [optPush, wfR, headOk, mergeable]
    | .markup m (some i) :: rest, .markup m2 ia2 =>
      simp_all [optPush, wfR, headOk, mergeable]
    | .markup m ia :: rest, .text s =>
      cases ia <;> simp_all [optPush, wfR, headOk, mergeable]

theorem wfR_optFold (l : List Segment) :
    ∀ out, wfR out = true → wfR (l.foldl optStep out) = true := by
  induction l with
  | nil => intro out h; simpa using h
  | cons a l ih =>
    intro out h
    exact ih _ (wfR_optStep out a h)

theorem foldr_optStep_of_wfR (l : List Segment) (h : wfR l = true) :
    l.foldr (fun a out => optStep out a) [] = l := by
  induction l with
  | nil => rfl
  | cons a rest ih =>
    obtain ⟨h1, h2, h3⟩ := wfR_tail _ _ h
    rw [List.foldr_cons, ih h3]
    cases rest with
    | nil => simp [optStep, optPush, h1]
    | cons b r2 =>
      have hm : mergeable b a = false := by
        simpa [headOk] using h2
      simp [optStep, h1, optPush_of_not_mergeable b a r2 hm]

theorem optimize_wfR (segs : List Segment) :
    wfR (segs.foldl optStep []) = true :=
  wfR_optFold segs [] rfl

/-! ## Claim C4: what length() sums -/

/-- Claim C4 counterexample: `length()` of the single segment
`markup "abc" interpreted as "x"` is 3, the raw markup length, while the
interpreted stream has length 1 — so `length()` does not return the sum of
the interpreted lengths. -/
theorem length_not_interpreted :
    lengthA [.markup "abc".data (some "x".data)] = 3 ∧
    interpLen [.markup "abc".data (some "x".data)] = 1 ∧ (3 : Nat) ≠ 1 := by
  refine ⟨rfl, rfl, by decide⟩

/-- Claim C4 (amended): `length()` returns the sum of the segments' source
lengths — text content length plus raw `markup` length, not the
`interpretAs` length — i.e. the length of the source region rather than of
the stream the checker sees. -/
theorem length_sums_source_lengths (segs : List Segment) :
    lengthA segs = srcLen segs :=
  lengthA_eq segs

/-! ## Claim C5: optimize is an idempotent, semantics-preserving compaction -/

/-- Claim C5: applying `optimize` twice yields the same segment list as
applying it once, and `optimize` changes neither `length()` nor the
concatenated interpreted content. -/
theorem optimize_idempotent_preserving (segs : List Segment) :
    optimize (optimize segs) = optimize segs ∧
    lengthA (optimize segs) = lengthA segs ∧
    interp (optimize segs) = interp segs := by
  refine ⟨?_, ?_, ?_⟩
  · show optimize ((segs.foldl optStep []).reverse)
      = (segs.foldl optStep []).reverse
    rw [optimize, List.foldl_reverse,
      foldr_optStep_of_wfR _ (optimize_wfR segs)]
  · rw [lengthA_eq, lengthA_eq, optimize, srcLen_reverse, srcLen_optFold]
    simp [srcLen]
  · rw [optimize, interp_optFold]
    simp [interp]


/-! ## Lemmas about extractSlice -/

theorem content_srcLen (a : Segment) : a.content.length = a.srcLen := by
  cases a <;> rfl

theorem sliceLoop_none (rest : List Segment) :
    ∀ text f t, f ≤ t → text.length < t →
      (sliceLoop rest text f t = none ↔ text.length + srcLen rest < t) := by
  induction rest with
  | nil =>
    intro text f t hft h
    simp only [sliceLoop, srcLen, List.map_nil, List.sum_nil]
    simp only [true_iff]
    omega
  | cons a rest ih =>
    intro text f t hft h
    cases a with
    | text s =>
      simp only [sliceLoop, srcLen, List.map_cons, List.sum_cons, Segment.srcLen]
      by_cases hc : t ≤ (text ++ s).length
      · rw [if_pos hc]
        simp only [List.length_append] at hc
        constructor
        · intro hn; cases hn
        · omega
      · rw [if_neg hc]
        simp only [List.length_append] at hc
        rw [ih (text ++ s) f t hft (by simp only [List.length_append]; omega)]
        simp only [List.length_append, srcLen]
        omega
    | markup m ia =>
      simp only [sliceLoop, srcLen, List.map_cons, List.sum_cons, Segment.srcLen]
      by_cases hc : max (max text.length (f - m.length)) (t - m.length)
          + (ia.getD []).length ≤ (text ++ ia.getD []).length
      · rw [if_pos hc]
        simp only [List.length_append] at hc
        constructor
        · intro hn; cases hn
        · omega
      · rw [if_neg hc]
        simp only [List.length_append] at hc ⊢
        rw [ih (text ++ ia.getD [])
          (max text.length (f - m.length))
          (max (max text.length (f - m.length)) (t - m.length)
            + (ia.getD []).length)
          (by omega) (by simp only [List.length_append]; omega)]
        simp only [List.length_append, srcLen]
        omega

theorem extractSlice_skip (a : Segment) (rest : List Segment) (f t : Nat)
    (hc : a.content.length < f) :
    extractSlice (a :: rest) f t
      = extractSlice rest (f - a.content.length) (t - a.content.length) := by
  simp [extractSlice, skipLoop, hc]

theorem extractSlice_stay (a : Segment) (rest : List Segment) (f t : Nat)
    (hc : ¬ a.content.length < f) :
    extractSlice (a :: rest) f t = sliceLoop (a :: rest) [] f t := by
  simp [extractSlice, skipLoop, hc]

theorem extractSlice_none (segs : List Segment) :
    ∀ f t, f ≤ t → 0 < t →
      (extractSlice segs f t = none ↔ srcLen segs < t) := by
  induction segs with
  | nil =>
    intro f t hft ht
    simp only [extractSlice, skipLoop, sliceLoop, srcLen, List.map_nil,
      List.sum_nil]
    simp only [true_iff]
    omega
  | cons a rest ih =>
    intro f t hft ht
    by_cases hc : a.content.length < f
    · rw [extractSlice_skip a rest f t hc,
        ih _ _ (by omega) (by have := content_srcLen a; omega)]
      have := content_srcLen a
      simp only [srcLen, List.map_cons, List.sum_cons]
      omega
    · rw [extractSlice_stay a rest f t hc,
        sliceLoop_none (a :: rest) [] f t hft (by simpa using ht)]
      simp

theorem jsSlice_append (A B : Str) (f t : Nat) (hft : f ≤ t)
    (h : t ≤ A.length) : jsSlice (A ++ B) f t = jsSlice A f t := by
  unfold jsSlice
  rw [List.drop_append_of_le_length (by omega),
    List.take_append_of_le_length (by simp; omega)]

theorem jsSlice_skip (A B : Str) (f t : Nat) (h : A.length ≤ f) :
    jsSlice (A ++ B) f t = jsSlice B (f - A.length) (t - A.length) := by
  unfold jsSlice
  have h1 : List.drop f (A ++ B) = List.drop (f - A.length) B := by
    conv_lhs => rw [show f = A.length + (f - A.length) by omega]
    rw [List.drop_append]
  rw [h1]
  congr 1
  omega

theorem sliceLoop_text (rest : List Segment) :
    ∀ text f t, (∀ a ∈ rest, a.isText = true) → f ≤ t → text.length < t →
      t ≤ text.length + srcLen rest →
      sliceLoop rest text f t
        = some (trim (jsSlice (text ++ interp rest) f t)) := by
  induction rest with
  | nil =>
    intro text f t _ hft h1 h2
    simp only [srcLen, List.map_nil, List.sum_nil] at h2
    omega
  | cons a rest ih =>
    intro text f t hall hft h1 h2
    cases a with
    | markup m ia =>
      have := hall _ (List.mem_cons_self _ _)
      simp [Segment.isText] at this
    | text s =>
      have hint : interp (Segment.text s :: rest) = s ++ interp rest := by
        simp [interp, Segment.interp]
      simp only [sliceLoop]
      by_cases hc : t ≤ (text ++ s).length
      · rw [if_pos hc]
        rw [hint, ← List.append_assoc,
          jsSlice_append (text ++ s) (interp rest) f t hft hc]
      · rw [if_neg hc]
        simp only [List.length_append] at hc
        rw [ih (text ++ s) f t (fun a ha => hall a (List.mem_cons_of_mem _ ha))
          hft (by simp only [List.length_append]; omega)
          (by simp only [srcLen, List.map_cons, List.sum_cons,
            Segment.srcLen, List.length_append] at h2 ⊢; omega)]
        rw [hint, ← List.append_assoc]

theorem extractSlice_text (segs : List Segment) :
    ∀ f t, (∀ a ∈ segs, a.isText = true) → f ≤ t → 0 < t →
      t ≤ srcLen segs →
      extractSlice segs f t = some (trim (jsSlice (interp segs) f t)) := by
  induction segs with
  | nil =>
    intro f t _ _ ht hle
    simp only [srcLen, List.map_nil, List.sum_nil] at hle
    omega
  | cons a rest ih =>
    intro f t hall hft ht hle
    cases a with
    | markup m ia =>
      have := hall _ (List.mem_cons_self _ _)
      simp [Segment.isText] at this
    | text s =>
      have hint : interp (Segment.text s :: rest) = s ++ interp rest := by
        simp [interp, Segment.interp]
      have hsrc : srcLen (Segment.text s :: rest) = s.length + srcLen rest := by
        simp [srcLen, Segment.srcLen]
      by_cases hc : (Segment.text s).content.length < f
      · have hcs : s.length < f := by simpa [Segment.content] using hc
        rw [extractSlice_skip _ rest f t hc]
        simp only [Segment.content]
        rw [ih (f - s.length) (t - s.length)
          (fun a ha => hall a (List.mem_cons_of_mem _ ha))
          (by omega) (by omega) (by rw [hsrc] at hle; omega)]
        rw [hint, jsSlice_skip s (interp rest) f t (by omega)]
      · rw [extractSlice_stay _ rest f t hc]
        have := sliceLoop_text (Segment.text s :: rest) [] f t hall hft
          (by simpa using ht) (by simpa using hle)
        simpa using this

/-! ## Claim C1: what extractSlice computes -/

/-- Claim C1 counterexample: on the segment list `markup "**" interpreted as
""` followed by `text "hello"`, whose interpreted stream is exactly
`"hello"` (length 5), `extractSlice 0 5` returns `"hel"` rather than the
trimmed interpreted substring `"hello"` — the offsets are consumed against
source lengths, not interpreted-stream lengths. -/
theorem extractSlice_not_interp_offsets :
    extractSlice [.markup "**".data (some []), .text "hello".data] 0 5
      = some "hel".data ∧
    interp [.markup "**".data (some []), .text "hello".data] = "hello".data ∧
    trim (jsSlice "hello".data 0 5) = "hello".data ∧
    some "hel".data ≠ some "hello".data := by
  refine ⟨?_, ?_, ?_, ?_⟩ <;> decide

/-- Claim C1 (amended): `extractSlice from to` consumes its offsets against
the segments' source lengths (text plus raw markup, i.e. the stream measured
by `length()`), not the interpreted stream: it returns `null` exactly when
the total source length is shorter than `to` (for positive `to`), and on
markup-free segment lists — where source and interpreted offsets coincide —
it returns the trimmed interpreted substring between `from` and `to`. -/
theorem extractSlice_amended (segs : List Segment) (f t : Nat)
    (hft : f ≤ t) (ht : 0 < t) :
    (extractSlice segs f t = none ↔ srcLen segs < t) ∧
    ((∀ a ∈ segs, a.isText = true) → t ≤ srcLen segs →
      extractSlice segs f t = some (trim (jsSlice (interp segs) f t))) :=
  ⟨extractSlice_none segs f t hft ht,
    fun hall hle => extractSlice_text segs f t hall hft ht hle⟩

/-- Concrete instance of the amended claim C1, at the segment list
`text "ab"` with offsets 0 and 2. -/
theorem extractSlice_amended_witness :
    (extractSlice [Segment.text "ab".data] 0 2 = none
      ↔ srcLen [Segment.text "ab".data] < 2) ∧
    extractSlice [Segment.text "ab".data] 0 2
      = some (trim (jsSlice (interp [Segment.text "ab".data]) 0 2)) :=
  ⟨(extractSlice_amended [Segment.text "ab".data] 0 2 (by decide) (by decide)).1,
    (extractSlice_amended [Segment.text "ab".data] 0 2 (by decide)
      (by decide)).2 (by decide) (by decide)⟩


/-! ## Claim C9: dictionary reconciliation -/

/-- Claim C9 (spec-modelled reconciliation): the merged set is
`(remote − localRemoved) ∪ (local − (lastSynced − remote))`, and on the
scenario `lastSynced = foo,bar`, `local = foo,baz`, `remote = foo,bar,qux`
the reconciliation deletes `bar` remotely, adds `baz` remotely, and the
merged set is exactly the set `foo,baz,qux`. -/
theorem reconcile_merge_spec :
    (∀ localWords lastSynced remote : List Str,
      (reconcile localWords lastSynced remote).2.2
        = setUnion
            (setDifference remote (reconcile localWords lastSynced remote).1)
            (setDifference localWords (setDifference lastSynced remote))) ∧
    (reconcile ["foo".data, "baz".data] ["foo".data, "bar".data]
        ["foo".data, "bar".data, "qux".data]).1 = ["bar".data] ∧
    (reconcile ["foo".data, "baz".data] ["foo".data, "bar".data]
        ["foo".data, "bar".data, "qux".data]).2.1 = ["baz".data] ∧
    List.Perm
      (reconcile ["foo".data, "baz".data] ["foo".data, "bar".data]
        ["foo".data, "bar".data, "qux".data]).2.2
      ["foo".data, "baz".data, "qux".data] := by
  refine ⟨fun localWords lastSynced remote => rfl, ?_, ?_, ?_⟩ <;> decide

/-! ## Claim C8: out-of-range matches are skipped, the rest applied -/

theorem runDetection_fold (docLen : Nat) (dict : List Str) :
    ∀ (ms : List LTMatch) (acc : List MainEffect),
      ms.foldl (fun acc m =>
        if docLen < m.mto then acc
        else if m.categoryId = "TYPOS".data ∧ dict.contains m.mtext then acc
        else acc ++ [.addUnderline m]) acc
      = acc ++ (ms.filter (fun m =>
          if docLen < m.mto then false
          else if m.categoryId = "TYPOS".data ∧ dict.contains m.mtext then false
          else true)).map MainEffect.addUnderline := by
  intro ms
  induction ms with
  | nil => intro acc; simp
  | cons m ms ih =>
    intro acc
    rw [List.foldl_cons, List.filter_cons]
    by_cases h1 : docLen < m.mto
    · rw [if_pos h1, ih]
      have hp : (if docLen < m.mto then false
          else if m.categoryId = "TYPOS".data ∧ dict.contains m.mtext
          then false else true) = false := by rw [if_pos h1]
      rw [hp]
      simp
    · by_cases h2 : m.categoryId = "TYPOS".data ∧ dict.contains m.mtext
      · rw [if_neg h1, if_pos h2, ih]
        have hp : (if docLen < m.mto then false
            else if m.categoryId = "TYPOS".data ∧ dict.contains m.mtext
            then false else true) = false := by rw [if_neg h1, if_pos h2]
        rw [hp]
        simp
      · rw [if_neg h1, if_neg h2, ih]
        have hp : (if docLen < m.mto then false
            else if m.categoryId = "TYPOS".data ∧ dict.contains m.mtext
            then false else true) = true := by rw [if_neg h1, if_neg h2]
        rw [hp]
        simp

theorem mem_clear_part (rng : Option LTRange) (m : LTMatch) :
    MainEffect.addUnderline m ∉
      (match rng with
      | some r => [MainEffect.clearUnderlinesInRange r]
      | none => [MainEffect.clearAllUnderlines]) := by
  cases rng <;> simp

/-- Claim C8: every returned match whose translated range ends beyond the
current document length produces no `addUnderline` effect, while every
in-range match (not suppressed by the spellcheck dictionary) still produces
its effect in the same dispatch. -/
theorem runDetection_skips_out_of_range (rng : Option LTRange) (docLen : Nat)
    (dict : List Str) (ms : List LTMatch) :
    (∀ m ∈ ms, docLen < m.mto →
      MainEffect.addUnderline m ∉ runDetectionEffects rng docLen dict ms) ∧
    (∀ m ∈ ms, m.mto ≤ docLen →
      ¬ (m.categoryId = "TYPOS".data ∧ dict.contains m.mtext = true) →
      MainEffect.addUnderline m ∈ runDetectionEffects rng docLen dict ms) := by
  constructor
  · intro m _ hout hmem
    unfold runDetectionEffects at hmem
    rw [runDetection_fold docLen dict ms []] at hmem
    rcases List.mem_append.mp hmem with h | h
    · exact mem_clear_part rng m h
    · simp only [List.nil_append, List.mem_map] at h
      obtain ⟨m', hm', heq⟩ := h
      cases heq
      have hf := List.of_mem_filter hm'
      rw [if_pos hout] at hf
      exact absurd hf (by simp)
  · intro m hm hin hdict
    unfold runDetectionEffects
    rw [runDetection_fold docLen dict ms []]
    refine List.mem_append.mpr (Or.inr ?_)
    simp only [List.nil_append, List.mem_map]
    refine ⟨m, List.mem_filter.mpr ⟨hm, ?_⟩, rfl⟩
    rw [if_neg (by omega), if_neg hdict]

/-- Concrete instance of claim C8: with document length 5, the match ending
at 9 is skipped and the match ending at 2 is still applied. -/
theorem runDetection_skips_out_of_range_witness :
    MainEffect.addUnderline ⟨0, 9, [], [], []⟩ ∉
      runDetectionEffects none 5 [] [⟨0, 2, [], [], []⟩, ⟨0, 9, [], [], []⟩] ∧
    MainEffect.addUnderline ⟨0, 2, [], [], []⟩ ∈
      runDetectionEffects none 5 [] [⟨0, 2, [], [], []⟩, ⟨0, 9, [], [], []⟩] :=
  ⟨(runDetection_skips_out_of_range none 5 []
      [⟨0, 2, [], [], []⟩, ⟨0, 9, [], [], []⟩]).1 ⟨0, 9, [], [], []⟩
      (by decide) (by decide),
    (runDetection_skips_out_of_range none 5 []
      [⟨0, 2, [], [], []⟩, ⟨0, 9, [], [], []⟩]).2 ⟨0, 2, [], [], []⟩
      (by decide) (by decide) (by decide)⟩


/-! ## Lemmas about position mapping and the underline field -/

theorem mapPos_before (e : Edit) (pos : Nat) (h : pos ≤ e.fromA) :
    mapPos e pos = pos := by
  simp [mapPos, h]

theorem mapPos_after (e : Edit) (pos : Nat) (he : e.fromA ≤ e.toA)
    (h : e.toA < pos) :
    mapPos e pos = e.fromA + e.insLen + (pos - e.toA) := by
  unfold mapPos
  rw [if_neg (by omega), if_pos (by omega)]

theorem foldl_applyEffect_nil (ctx : UpdateCtx)
    (st : List Underline × List (Nat × Nat)) :
    List.foldl (applyEffect ctx) st [] = st := rfl

/-! ## Claim C6: remapping through edits -/

/-- Claim C6: for a typing transaction (one replacement, with the main
selection the cursor at the end of the inserted text, and no effects), an
edit lying entirely before a stored underline shifts both of its endpoints
by exactly the net length delta of the edit, while an edit falling strictly
inside the underline's range removes it instead of remapping it. -/
theorem underline_remap (ctx : UpdateCtx) (us : List Underline)
    (u : Underline) (e : Edit) (oldLen : Nat)
    (hu : u ∈ us) (hur : u.rng.rfrom < u.rng.rto) (he : e.fromA ≤ e.toA) :
    (e.toA < u.rng.rfrom →
      (⟨mapRange e u.rng, u.data⟩ : Underline) ∈ underlineUpdate ctx us
        ⟨some e, some ⟨e.fromA + e.insLen, e.fromA + e.insLen⟩, oldLen, []⟩ ∧
      ((mapRange e u.rng).rfrom : Int)
        = u.rng.rfrom + ((e.insLen : Int) - ((e.toA : Int) - e.fromA)) ∧
      ((mapRange e u.rng).rto : Int)
        = u.rng.rto + ((e.insLen : Int) - ((e.toA : Int) - e.fromA))) ∧
    (u.rng.rfrom < e.fromA → e.toA < u.rng.rto →
      (⟨mapRange e u.rng, u.data⟩ : Underline) ∉ underlineUpdate ctx us
        ⟨some e, some ⟨e.fromA + e.insLen, e.fromA + e.insLen⟩, oldLen, []⟩) := by
  constructor
  · intro hbefore
    have hf : mapPos e u.rng.rfrom
        = e.fromA + e.insLen + (u.rng.rfrom - e.toA) :=
      mapPos_after e _ he hbefore
    have ht : mapPos e u.rng.rto
        = e.fromA + e.insLen + (u.rng.rto - e.toA) :=
      mapPos_after e _ he (by omega)
    have hm1 : (⟨mapRange e u.rng, u.data⟩ : Underline)
        ∈ mapUnderlines (some e) us := by
      unfold mapUnderlines
      refine List.mem_filter.mpr ⟨List.mem_map.mpr ⟨u, hu, rfl⟩, ?_⟩
      simp only [mapRange, hf, ht, decide_eq_true_eq]
      omega
    have hnov : rangeOverlapping (mapRange e u.rng)
        ⟨e.fromA + e.insLen, e.fromA + e.insLen⟩ = false := by
      simp only [rangeOverlapping, mapRange, hf, ht, decide_eq_false_iff_not]
      omega
    refine ⟨?_, ?_, ?_⟩
    · unfold underlineUpdate
      simp only [foldl_applyEffect_nil]
      rw [if_pos ⟨rfl, rfl, List.ne_nil_of_mem hm1⟩]
      exact List.mem_filter.mpr ⟨hm1, by simp [hnov]⟩
    · simp only [mapRange, hf]
      push_cast
      omega
    · simp only [mapRange, ht]
      push_cast
      omega
  · intro hl hr
    have hf : mapPos e u.rng.rfrom = u.rng.rfrom :=
      mapPos_before e _ (by omega)
    have ht : mapPos e u.rng.rto
        = e.fromA + e.insLen + (u.rng.rto - e.toA) :=
      mapPos_after e _ he hr
    have hm1 : (⟨mapRange e u.rng, u.data⟩ : Underline)
        ∈ mapUnderlines (some e) us := by
      unfold mapUnderlines
      refine List.mem_filter.mpr ⟨List.mem_map.mpr ⟨u, hu, rfl⟩, ?_⟩
      simp only [mapRange, hf, ht, decide_eq_true_eq]
      omega
    have hov : rangeOverlapping (mapRange e u.rng)
        ⟨e.fromA + e.insLen, e.fromA + e.insLen⟩ = true := by
      simp only [rangeOverlapping, mapRange, hf, ht, decide_eq_true_eq]
      left
      omega
    intro hmem
    unfold underlineUpdate at hmem
    simp only [foldl_applyEffect_nil] at hmem
    rw [if_pos ⟨rfl, rfl, List.ne_nil_of_mem hm1⟩] at hmem
    have := (List.mem_filter.mp hmem).2
    simp [hov] at this

/-- Concrete instance of claim C6: a one-character deletion with two
inserted characters before the underline at 5..8 shifts it to 6..9, and the
same kind of edit strictly inside the underline at 5..9 removes it. -/
theorem underline_remap_witness :
    ((⟨mapRange ⟨0, 1, 3⟩ ⟨5, 8⟩, ⟨5, 8, [], [], []⟩⟩ : Underline)
      ∈ underlineUpdate ⟨[], fun _ => true, fun _ => true⟩
        [⟨⟨5, 8⟩, ⟨5, 8, [], [], []⟩⟩]
        ⟨some ⟨0, 1, 3⟩, some ⟨3, 3⟩, 20, []⟩ ∧
      ((mapRange ⟨0, 1, 3⟩ ⟨5, 8⟩).rfrom : Int)
        = 5 + ((3 : Int) - ((1 : Int) - 0)) ∧
      ((mapRange ⟨0, 1, 3⟩ ⟨5, 8⟩).rto : Int)
        = 8 + ((3 : Int) - ((1 : Int) - 0))) ∧
    (⟨mapRange ⟨6, 7, 2⟩ ⟨5, 9⟩, ⟨5, 9, [], [], []⟩⟩ : Underline)
      ∉ underlineUpdate ⟨[], fun _ => true, fun _ => true⟩
        [⟨⟨5, 9⟩, ⟨5, 9, [], [], []⟩⟩]
        ⟨some ⟨6, 7, 2⟩, some ⟨8, 8⟩, 20, []⟩ :=
  ⟨(underline_remap ⟨[], fun _ => true, fun _ => true⟩
      [⟨⟨5, 8⟩, ⟨5, 8, [], [], []⟩⟩] ⟨⟨5, 8⟩, ⟨5, 8, [], [], []⟩⟩ ⟨0, 1, 3⟩ 20
      (by simp) (by decide) (by decide)).1 (by decide),
    (underline_remap ⟨[], fun _ => true, fun _ => true⟩
      [⟨⟨5, 9⟩, ⟨5, 9, [], [], []⟩⟩] ⟨⟨5, 9⟩, ⟨5, 9, [], [], []⟩⟩ ⟨6, 7, 2⟩ 20
      (by simp) (by decide) (by decide)).2 (by decide) (by decide)⟩


/-! ## Claim C7: duplicate insertion and ignored ranges -/

theorem applyEffect_add_seen (ctx : UpdateCtx) (effs : List Effect)
    (k : Nat × Nat)
    (hall : ∀ e ∈ effs, ∃ m, e = .addUnderline m ∧ (m.mfrom, m.mto) = k) :
    ∀ us seen, seen.contains k = true →
      effs.foldl (applyEffect ctx) (us, seen) = (us, seen) := by
  induction effs with
  | nil => intro us seen _; rfl
  | cons e effs ih =>
    intro us seen hseen
    obtain ⟨m, rfl, hk⟩ := hall e (List.mem_cons_self _ _)
    rw [List.foldl_cons]
    have hstep : applyEffect ctx (us, seen) (.addUnderline m) = (us, seen) := by
      simp only [applyEffect]
      rw [if_neg]
      intro hcond
      rw [hk] at hcond
      exact hcond.2.1 hseen
    rw [hstep]
    exact ih (fun e he => hall e (List.mem_cons_of_mem _ he)) us seen hseen

/-- Claim C7: in one update cycle of the underline store, (1) dispatching
several `addUnderline` effects whose matches share the identical range
`f..t` (none rejected by the oracles or the ignored set) stores exactly one
underline for that range — the others are deduplicated by `seenRanges`; and
(2) a single `addUnderline` whose range key is in the `ignoredRanges` set of
the ignored-underline field is a no-op. -/
theorem underline_dedup_and_ignored (ctx : UpdateCtx) (us : List Underline)
    (oldLen : Nat) :
    (∀ (m0 : LTMatch) (rest : List LTMatch) (f t : Nat),
      (∀ m ∈ m0 :: rest, m.mfrom = f ∧ m.mto = t) →
      ctx.ignoredRanges.contains (f, t) = false →
      ctx.canDecorate f = true → ctx.canDecorate t = true →
      (∀ m ∈ m0 :: rest, ctx.ruleAllowed m = true) →
      underlineUpdate ctx us
          ⟨none, none, oldLen, (m0 :: rest).map .addUnderline⟩
        = us ++ [⟨⟨f, t⟩, m0⟩] ∧
      (us.countP (fun u => decide (u.rng = (⟨f, t⟩ : LTRange))) = 0 →
        (underlineUpdate ctx us
            ⟨none, none, oldLen, (m0 :: rest).map .addUnderline⟩).countP
          (fun u => decide (u.rng = (⟨f, t⟩ : LTRange))) = 1)) ∧
    (∀ m : LTMatch,
      ctx.ignoredRanges.contains (m.mfrom, m.mto) = true →
      underlineUpdate ctx us ⟨none, none, oldLen, [.addUnderline m]⟩ = us) := by
  have hnofilter : ∀ effs, underlineUpdate ctx us ⟨none, none, oldLen, effs⟩
      = (effs.foldl (applyEffect ctx) (us, [])).1 := by
    intro effs
    unfold underlineUpdate
    simp [mapUnderlines]
  constructor
  · intro m0 rest f t hall hnotig hcd1 hcd2 hra
    have h0 := hall m0 (List.mem_cons_self _ _)
    have hstep : applyEffect ctx (us, []) (.addUnderline m0)
        = (us ++ [⟨⟨f, t⟩, m0⟩], [(f, t)]) := by
      have hnotig' : (f, t) ∉ ctx.ignoredRanges := by simpa using hnotig
      simp [applyEffect, h0.1, h0.2, hnotig', hcd1, hcd2,
        hra m0 (List.mem_cons_self _ _)]
    have hrest : (rest.map Effect.addUnderline).foldl (applyEffect ctx)
        (us ++ [⟨⟨f, t⟩, m0⟩], [(f, t)]) = (us ++ [⟨⟨f, t⟩, m0⟩], [(f, t)]) := by
      refine applyEffect_add_seen ctx _ (f, t) ?_ _ _ (by simp)
      intro e he
      obtain ⟨m, hm, rfl⟩ := List.mem_map.mp he
      exact ⟨m, rfl, by rw [(hall m (List.mem_cons_of_mem _ hm)).1,
        (hall m (List.mem_cons_of_mem _ hm)).2]⟩
    have hmain : underlineUpdate ctx us
        ⟨none, none, oldLen, (m0 :: rest).map .addUnderline⟩
        = us ++ [⟨⟨f, t⟩, m0⟩] := by
      rw [hnofilter, List.map_cons, List.foldl_cons, hstep, hrest]
    refine ⟨hmain, fun hcnt => ?_⟩
    rw [hmain, List.countP_append, hcnt]
    simp
  · intro m hig
    rw [hnofilter]
    simp only [List.foldl_cons, List.foldl_nil]
    simp only [applyEffect]
    rw [if_neg]
    intro hcond
    rw [hig] at hcond
    exact hcond.1 rfl

/-- Concrete instance of claim C7: two matches sharing the range 3..5 yield
exactly one stored underline, and a match whose range 0..2 is in the ignored
set is rejected. -/
theorem underline_dedup_and_ignored_witness :
    underlineUpdate ⟨[(0, 2)], fun _ => true, fun _ => true⟩ []
        ⟨none, none, 20, [.addUnderline ⟨3, 5, [], [], []⟩,
          .addUnderline ⟨3, 5, [], "X".data, []⟩]⟩
      = [⟨⟨3, 5⟩, ⟨3, 5, [], [], []⟩⟩] ∧
    (underlineUpdate ⟨[(0, 2)], fun _ => true, fun _ => true⟩ []
        ⟨none, none, 20, [.addUnderline ⟨3, 5, [], [], []⟩,
          .addUnderline ⟨3, 5, [], "X".data, []⟩]⟩).countP
      (fun u => decide (u.rng = (⟨3, 5⟩ : LTRange))) = 1 ∧
    underlineUpdate ⟨[(0, 2)], fun _ => true, fun _ => true⟩ []
        ⟨none, none, 20, [.addUnderline ⟨0, 2, [], [], []⟩]⟩ = [] := by
  have h := (underline_dedup_and_ignored
    ⟨[(0, 2)], fun _ => true, fun _ => true⟩ [] 20).1
    ⟨3, 5, [], [], []⟩ [⟨3, 5, [], "X".data, []⟩] 3 5
    (by decide) (by decide) rfl rfl (by decide)
  have h2 := (underline_dedup_and_ignored
    ⟨[(0, 2)], fun _ => true, fun _ => true⟩ [] 20).2
    ⟨0, 2, [], [], []⟩ (by decide)
  exact ⟨by simpa using h.1, by simpa using h.2 (by decide), by simpa using h2⟩


/-! ## Claim C10: the two representations of ignored ranges stay in sync -/

theorem mapPos_le_newLen (e : Edit) (oldLen pos : Nat)
    (he1 : e.fromA ≤ e.toA) (he2 : e.toA ≤ oldLen) (hp : pos ≤ oldLen) :
    mapPos e pos ≤ editNewLen e oldLen := by
  unfold mapPos editNewLen
  by_cases h1 : pos ≤ e.fromA
  · rw [if_pos h1]; omega
  · rw [if_neg h1]
    by_cases h2 : e.toA ≤ pos
    · rw [if_pos h2]; omega
    · rw [if_neg h2]; omega

theorem rkey_inj (a b : LTRange) (h : rkey a = rkey b) : a = b := by
  cases a; cases b
  simp only [rkey, Prod.mk.injEq] at h
  simp [h.1, h.2]

theorem ignored_inv_effects (effs : List Effect) :
    ∀ st : IgnoredState,
      (∀ k, k ∈ st.ignoredRanges ↔ k ∈ st.marks.map rkey) →
      ∀ k, k ∈ (effs.foldl ignoredEffStep st).ignoredRanges
        ↔ k ∈ (effs.foldl ignoredEffStep st).marks.map rkey := by
  induction effs with
  | nil => intro st h k; exact h k
  | cons e effs ih =>
    intro st h k
    rw [List.foldl_cons]
    cases e with
    | ignoreUnderline r =>
      refine ih _ (fun k => ?_) k
      simp only [ignoredEffStep, addKey, List.map_append, List.map_cons,
        List.map_nil]
      by_cases hc : st.ignoredRanges.contains (rkey r) = true
      · rw [if_pos hc]
        have hr : rkey r ∈ st.ignoredRanges := by simpa using hc
        constructor
        · intro hk
          exact List.mem_append_left _ ((h k).mp hk)
        · intro hk
          rcases List.mem_append.mp hk with hk | hk
          · exact (h k).mpr hk
          · simp only [List.mem_singleton] at hk
            subst hk
            exact hr
      · rw [if_neg hc]
        constructor
        · intro hk
          rcases List.mem_append.mp hk with hk | hk
          · exact List.mem_append_left _ ((h k).mp hk)
          · exact List.mem_append_right _ hk
        · intro hk
          rcases List.mem_append.mp hk with hk | hk
          · exact List.mem_append_left _ ((h k).mpr hk)
          · exact List.mem_append_right _ hk
    | addUnderline m => exact ih _ h k
    | clearUnderlines => exact ih _ h k
    | clearUnderlinesInRange r => exact ih _ h k

theorem ignored_inv_filter (marks : List LTRange) (p : LTRange → Bool) :
    ∀ k, k ∈ (marks.map rkey).filter
        (fun k => ¬ ((marks.filter (fun r => p r)).map rkey).contains k)
      ↔ k ∈ (marks.filter (fun r => ¬ p r)).map rkey := by
  intro k
  constructor
  · intro hk
    have h1 := (List.mem_filter.mp hk).1
    have h2 := (List.mem_filter.mp hk).2
    obtain ⟨r, hr, rfl⟩ := List.mem_map.mp h1
    refine List.mem_map.mpr ⟨r, List.mem_filter.mpr ⟨hr, ?_⟩, rfl⟩
    by_cases hp : p r = true
    · exfalso
      have : rkey r ∈ (marks.filter (fun r => p r)).map rkey :=
        List.mem_map.mpr ⟨r, List.mem_filter.mpr ⟨hr, hp⟩, rfl⟩
      simp only [decide_not, Bool.not_eq_true', decide_eq_false_iff_not] at h2
      exact h2 (by simpa using this)
    · simpa using hp
  · intro hk
    obtain ⟨r, hr, rfl⟩ := List.mem_map.mp hk
    have hr1 := (List.mem_filter.mp hr).1
    have hr2 := (List.mem_filter.mp hr).2
    refine List.mem_filter.mpr ⟨List.mem_map.mpr ⟨r, hr1, rfl⟩, ?_⟩
    simp only [decide_not, Bool.not_eq_true', decide_eq_false_iff_not]
    intro hcon
    have : rkey r ∈ (marks.filter (fun r => p r)).map rkey := by simpa using hcon
    obtain ⟨r', hr', hkeq⟩ := List.mem_map.mp this
    have := rkey_inj r' r hkeq
    subst this
    have := (List.mem_filter.mp hr').2
    simp only [Bool.not_eq_true', decide_not] at hr2
    rw [this] at hr2
    simp at hr2

/-- Claim C10: after every update of the ignored-underline field — starting
from marks lying inside the old document, with any edit confined to the old
document — the `ignoredRanges` key set contains exactly the keys of the
ranges present in the `marks` decoration set: remapping, selection-overlap
removal and `ignoreUnderline` effects keep the two representations
consistent. -/
theorem ignored_field_consistent (st : IgnoredState) (tr : Tr)
    (hm : ∀ r ∈ st.marks, r.rfrom ≤ r.rto ∧ r.rto ≤ tr.oldLen)
    (he : ∀ e, tr.edit = some e → e.fromA ≤ e.toA ∧ e.toA ≤ tr.oldLen) :
    ∀ k, k ∈ (ignoredUpdate st tr).ignoredRanges
      ↔ k ∈ (ignoredUpdate st tr).marks.map rkey := by
  have hbound : ∀ r ∈ mapRanges tr.edit st.marks,
      decide (r.rfrom ≤ tr.newLen) = true := by
    intro r hr
    simp only [decide_eq_true_eq]
    cases htr : tr.edit with
    | none =>
      rw [htr] at hr
      simp only [mapRanges] at hr
      have := hm r hr
      simp only [Tr.newLen, htr]
      omega
    | some e =>
      rw [htr] at hr
      simp only [mapRanges, List.mem_filter, List.mem_map] at hr
      obtain ⟨⟨r0, hr0, rfl⟩, _⟩ := hr
      simp only [Tr.newLen, htr, mapRange]
      exact mapPos_le_newLen e tr.oldLen r0.rfrom (he e htr).1 (he e htr).2
        (by have := hm r0 hr0; omega)
  have hfe : (mapRanges tr.edit st.marks).filter
      (fun r => decide (r.rfrom ≤ tr.newLen)) = mapRanges tr.edit st.marks :=
    List.filter_eq_self.mpr hbound
  simp only [ignoredUpdate]
  rw [hfe]
  set marks1 := mapRanges tr.edit st.marks with hmarks1
  by_cases hcond : tr.edit.isSome ∧ tr.selection.isSome ∧ marks1 ≠ []
  · cases hsel : tr.selection with
    | none => rw [hsel] at hcond; simp at hcond
    | some sel =>
      rw [hsel] at hcond
      rw [if_pos hcond, if_pos hcond]
      exact ignored_inv_effects tr.effects _
        (ignored_inv_filter marks1 (fun r => rangeOverlapping r sel))
  · rw [if_neg hcond, if_neg hcond]
    refine ignored_inv_effects tr.effects _ (fun k => ?_)
    simp

/-- Concrete instance of claim C10: one mark at 0..2 remapped through an
edit at 3..4, with the mark at 5..7 removed by the selection at 6 and a new
ignored range 8..9 added by effect; checked at the key of the added
range. -/
theorem ignored_field_consistent_witness :
    (8, 9) ∈ (ignoredUpdate ⟨[⟨0, 2⟩, ⟨5, 7⟩], [(0, 2), (5, 7)]⟩
        ⟨some ⟨3, 4, 2⟩, some ⟨6, 6⟩, 10,
          [.ignoreUnderline ⟨8, 9⟩]⟩).ignoredRanges
      ↔ (8, 9) ∈ (ignoredUpdate ⟨[⟨0, 2⟩, ⟨5, 7⟩], [(0, 2), (5, 7)]⟩
        ⟨some ⟨3, 4, 2⟩, some ⟨6, 6⟩, 10,
          [.ignoreUnderline ⟨8, 9⟩]⟩).marks.map rkey :=
  ignored_field_consistent ⟨[⟨0, 2⟩, ⟨5, 7⟩], [(0, 2), (5, 7)]⟩
    ⟨some ⟨3, 4, 2⟩, some ⟨6, 6⟩, 10, [.ignoreUnderline ⟨8, 9⟩]⟩
    (by decide) (by intro e heq; cases heq; exact ⟨by decide, by decide⟩) (8, 9)

/-! ## Lemmas about the markdown converter -/

theorem splitNL_ne_nil (s : Str) : splitNL s ≠ [] := by
  cases s with
  | nil => simp [splitNL]
  | cons c rest =>
    simp only [splitNL]
    by_cases h : c = '\n'
    · simp [h]
    · rw [if_neg h]
      cases hs : splitNL rest with
      | nil => simp
      | cons l ls => simp

theorem splitNL_length (s : Str) :
    s.length = ((splitNL s).map List.length).sum + ((splitNL s).length - 1) := by
  induction s with
  | nil => simp [splitNL]
  | cons c rest ih =>
    simp only [splitNL]
    by_cases h : c = '\n'
    · rw [if_pos h]
      have := List.length_pos.mpr (splitNL_ne_nil rest)
      simp only [List.map_cons, List.sum_cons, List.length_cons,
        List.length_nil, List.length]
      simp only [List.length_cons] at *
      omega
    · rw [if_neg h]
      cases hs : splitNL rest with
      | nil => exact absurd hs (splitNL_ne_nil rest)
      | cons l ls =>
        rw [hs] at ih
        simp only [List.map_cons, List.sum_cons, List.length_cons] at ih ⊢
        omega

theorem srcLen_nil : srcLen [] = 0 := rfl

theorem srcLen_cons (a : Segment) (l : List Segment) :
    srcLen (a :: l) = a.srcLen + srcLen l := by
  simp [srcLen]

theorem srcLen_spaces_markup (n : Nat) (ia : Option Str) :
    (Segment.markup (spaces n) ia).srcLen = n := by
  simp [Segment.srcLen, spaces]

theorem srcLen_mk0 (s : Str) : (mk0 s).srcLen = 0 := rfl

theorem srcLen_lines (rem : List Str) (indent : Nat) :
    srcLen (rem.flatMap (fun line =>
        [Segment.markup (spaces indent) none, Segment.text ('\n' :: line)]))
      = rem.length * indent + rem.length + (rem.map List.length).sum := by
  induction rem with
  | nil => simp [srcLen]
  | cons l ls ihr =>
    simp only [List.flatMap_cons, List.map_cons, List.sum_cons,
      List.length_cons]
    rw [srcLen_append, ihr]
    simp only [srcLen, List.map_cons, List.map_nil, List.sum_cons,
      List.sum_nil, Segment.srcLen, spaces, List.length_replicate,
      List.length_cons]
    ring

theorem srcLen_addLines (text : Str) (indent : Nat) :
    srcLen (addLines text indent)
      = text.length + ((splitNL text).length - 1) * indent := by
  unfold addLines
  cases hs : splitNL text with
  | nil => exact absurd hs (splitNL_ne_nil text)
  | cons first rem =>
    have hlen := splitNL_length text
    rw [hs] at hlen
    simp only [List.map_cons, List.sum_cons, List.length_cons,
      Nat.add_sub_cancel] at hlen ⊢
    rw [srcLen_cons, srcLen_lines]
    simp only [Segment.srcLen]
    omega

theorem srcLen_pad (off s : Nat) (h : off ≤ s) :
    srcLen (if off < s then [Segment.markup (spaces (s - off)) none] else [])
      = s - off := by
  by_cases hc : off < s
  · rw [if_pos hc, srcLen_cons, srcLen_spaces_markup, srcLen_nil]
    omega
  · rw [if_neg hc, srcLen_nil]
    omega



/-! ## Soundness of the converter cursor accounting -/

/-- For every position-well-formed node list (per `wfRun`), `toAnnotated`
succeeds and the emitted segments' source lengths account exactly for the
cursor movement: `off + srcLen segs = off'`. -/
theorem annList_srcLen (raw : Str) :
    ∀ (n : Nat) (nodes : List Md), sizeOf nodes ≤ n →
      ∀ off indent off', wfRun nodes off indent = some off' →
      ∃ segs, annList raw nodes off indent = some (off', segs) ∧
        off + srcLen segs = off' := by
  intro n
  induction n with
  | zero =>
    intro nodes hsz
    exfalso
    cases nodes <;> simp at hsz
  | succ n ih =>
    intro nodes hsz off indent off' hwf
    cases nodes with
    | nil =>
      rw [wfRun.eq_def] at hwf
      simp only [Option.some.injEq] at hwf
      subst hwf
      exact ⟨[], by simp [annList], by simp [srcLen]⟩
    | cons head rest =>
      cases head with
      | node k p value children =>
        have hszc : sizeOf children ≤ n := by
          simp only [List.cons.sizeOf_spec, Md.node.sizeOf_spec] at hsz
          omega
        have hszr : sizeOf rest ≤ n := by
          simp only [List.cons.sizeOf_spec, Md.node.sizeOf_spec] at hsz
          omega
        by_cases hoff : off ≤ p.startOff
        · rw [wfRun.eq_def] at hwf
          simp only [] at hwf
          rw [if_pos hoff] at hwf
          split at hwf
          · exact absurd hwf (by simp)
          · rename_i off2 heq
            obtain ⟨segs2, ha2, hs2⟩ := ih rest hszr off2 indent off' hwf
            split at heq
            · -- text node
              split at heq
              · rename_i hcnd
                simp only [Option.some.injEq] at heq
                subst heq
                have hL : 1 ≤ (splitNL value).length :=
                  List.length_pos.mpr (splitNL_ne_nil value)
                have hprod : ((((splitNL value).length - 1) * indent : Nat) : Int)
                    = (((splitNL value).length : Int) - 1) * (indent : Int) := by
                  push_cast [Nat.cast_sub hL]
                  ring
                have hInt : ((value.length : Int)
                    + (((splitNL value).length : Int) - 1) * (indent : Int))
                    = (p.endOff : Int) - (p.startOff : Int) := by
                  rw [← hprod]
                  omega
                have hfin : annList raw (Md.node .text p value children :: rest) off indent
                    = some (off', (if off < p.startOff then [Segment.markup (spaces (p.startOff - off)) none] else [])
                        ++ (addLines value indent ++ segs2)) := by
                  rw [annList.eq_def]
                  simp only [hInt, lt_self_iff_false, if_false, ha2]
                refine ⟨_, hfin, ?_⟩
                simp only [srcLen_append, srcLen_pad off p.startOff hoff, srcLen_addLines]
                omega
              · exact absurd heq (by simp)
            · -- yaml node: no output, cursor stays at the node start
              simp only [Option.some.injEq] at heq
              subst heq
              have hfin : annList raw (Md.node .yaml p value children :: rest) off indent
                  = some (off', (if off < p.startOff then [Segment.markup (spaces (p.startOff - off)) none] else []) ++ ([] ++ segs2)) := by
                rw [annList.eq_def]
                simp only [max_eq_right hoff, ha2]
              refine ⟨_, hfin, ?_⟩
              simp only [srcLen_append, srcLen_pad off p.startOff hoff, srcLen_nil]
              omega
            · -- code node: no output, cursor stays at the node start
              simp only [Option.some.injEq] at heq
              subst heq
              have hfin : annList raw (Md.node .code p value children :: rest) off indent
                  = some (off', (if off < p.startOff then [Segment.markup (spaces (p.startOff - off)) none] else []) ++ ([] ++ segs2)) := by
                rw [annList.eq_def]
                simp only [max_eq_right hoff, ha2]
              refine ⟨_, hfin, ?_⟩
              simp only [srcLen_append, srcLen_pad off p.startOff hoff, srcLen_nil]
              omega
            · -- html node: no output, cursor stays at the node start
              simp only [Option.some.injEq] at heq
              subst heq
              have hfin : annList raw (Md.node .html p value children :: rest) off indent
                  = some (off', (if off < p.startOff then [Segment.markup (spaces (p.startOff - off)) none] else []) ++ ([] ++ segs2)) := by
                rw [annList.eq_def]
                simp only [max_eq_right hoff, ha2]
              refine ⟨_, hfin, ?_⟩
              simp only [srcLen_append, srcLen_pad off p.startOff hoff, srcLen_nil]
              omega
            · -- image node: no output, cursor stays at the node start
              simp only [Option.some.injEq] at heq
              subst heq
              have hfin : annList raw (Md.node .image p value children :: rest) off indent
                  = some (off', (if off < p.startOff then [Segment.markup (spaces (p.startOff - off)) none] else []) ++ ([] ++ segs2)) := by
                rw [annList.eq_def]
                simp only [max_eq_right hoff, ha2]
              refine ⟨_, hfin, ?_⟩
              simp only [srcLen_append, srcLen_pad off p.startOff hoff, srcLen_nil]
              omega
            · -- imageReference node: no output, cursor stays at the node start
              simp only [Option.some.injEq] at heq
              subst heq
              have hfin : annList raw (Md.node .imageReference p value children :: rest) off indent
                  = some (off', (if off < p.startOff then [Segment.markup (spaces (p.startOff - off)) none] else []) ++ ([] ++ segs2)) := by
                rw [annList.eq_def]
                simp only [max_eq_right hoff, ha2]
              refine ⟨_, hfin, ?_⟩
              simp only [srcLen_append, srcLen_pad off p.startOff hoff, srcLen_nil]
              omega
            · -- footnoteReference node: no output, cursor stays at the node start
              simp only [Option.some.injEq] at heq
              subst heq
              have hfin : annList raw (Md.node .footnoteReference p value children :: rest) off indent
                  = some (off', (if off < p.startOff then [Segment.markup (spaces (p.startOff - off)) none] else []) ++ ([] ++ segs2)) := by
                rw [annList.eq_def]
                simp only [max_eq_right hoff, ha2]
              refine ⟨_, hfin, ?_⟩
              simp only [srcLen_append, srcLen_pad off p.startOff hoff, srcLen_nil]
              omega
            · -- definition node: no output, cursor stays at the node start
              simp only [Option.some.injEq] at heq
              subst heq
              have hfin : annList raw (Md.node .definition p value children :: rest) off indent
                  = some (off', (if off < p.startOff then [Segment.markup (spaces (p.startOff - off)) none] else []) ++ ([] ++ segs2)) := by
                rw [annList.eq_def]
                simp only [max_eq_right hoff, ha2]
              refine ⟨_, hfin, ?_⟩
              simp only [srcLen_append, srcLen_pad off p.startOff hoff, srcLen_nil]
              omega
            · -- strong node: recurse transparently
              obtain ⟨segsC, haC, hsC⟩ := ih children hszc p.startOff indent off2 heq
              have hfin : annList raw (Md.node .strong p value children :: rest) off indent
                  = some (off', (if off < p.startOff then [Segment.markup (spaces (p.startOff - off)) none] else []) ++ (segsC ++ segs2)) := by
                rw [annList.eq_def]
                simp only [max_eq_right hoff, haC, ha2]
              refine ⟨_, hfin, ?_⟩
              simp only [srcLen_append, srcLen_pad off p.startOff hoff]
              omega
            · -- emphasis node: recurse transparently
              obtain ⟨segsC, haC, hsC⟩ := ih children hszc p.startOff indent off2 heq
              have hfin : annList raw (Md.node .emphasis p value children :: rest) off indent
                  = some (off', (if off < p.startOff then [Segment.markup (spaces (p.startOff - off)) none] else []) ++ (segsC ++ segs2)) := by
                rw [annList.eq_def]
                simp only [max_eq_right hoff, haC, ha2]
              refine ⟨_, hfin, ?_⟩
              simp only [srcLen_append, srcLen_pad off p.startOff hoff]
              omega
            · -- del node: recurse transparently
              obtain ⟨segsC, haC, hsC⟩ := ih children hszc p.startOff indent off2 heq
              have hfin : annList raw (Md.node .del p value children :: rest) off indent
                  = some (off', (if off < p.startOff then [Segment.markup (spaces (p.startOff - off)) none] else []) ++ (segsC ++ segs2)) := by
                rw [annList.eq_def]
                simp only [max_eq_right hoff, haC, ha2]
              refine ⟨_, hfin, ?_⟩
              simp only [srcLen_append, srcLen_pad off p.startOff hoff]
              omega
            · -- footnoteDefinition node: recurse transparently
              obtain ⟨segsC, haC, hsC⟩ := ih children hszc p.startOff indent off2 heq
              have hfin : annList raw (Md.node .footnoteDefinition p value children :: rest) off indent
                  = some (off', (if off < p.startOff then [Segment.markup (spaces (p.startOff - off)) none] else []) ++ (segsC ++ segs2)) := by
                rw [annList.eq_def]
                simp only [max_eq_right hoff, haC, ha2]
              refine ⟨_, hfin, ?_⟩
              simp only [srcLen_append, srcLen_pad off p.startOff hoff]
              omega
            · -- linkReference node: recurse transparently
              obtain ⟨segsC, haC, hsC⟩ := ih children hszc p.startOff indent off2 heq
              have hfin : annList raw (Md.node .linkReference p value children :: rest) off indent
                  = some (off', (if off < p.startOff then [Segment.markup (spaces (p.startOff - off)) none] else []) ++ (segsC ++ segs2)) := by
                rw [annList.eq_def]
                simp only [max_eq_right hoff, haC, ha2]
              refine ⟨_, hfin, ?_⟩
              simp only [srcLen_append, srcLen_pad off p.startOff hoff]
              omega
            · -- list node: recurse then append a blank-line markup
              obtain ⟨segsC, haC, hsC⟩ := ih children hszc p.startOff indent off2 heq
              have hfin : annList raw (Md.node .list p value children :: rest) off indent
                  = some (off', (if off < p.startOff then [Segment.markup (spaces (p.startOff - off)) none] else [])
                      ++ ((segsC ++ [mk0 "\n\n".data]) ++ segs2)) := by
                rw [annList.eq_def]
                simp only [max_eq_right hoff, haC, ha2]
              refine ⟨_, hfin, ?_⟩
              simp only [srcLen_append, srcLen_pad off p.startOff hoff, srcLen_cons,
                srcLen_mk0, srcLen_nil]
              omega
            · -- heading node: recurse then append a blank-line markup
              obtain ⟨segsC, haC, hsC⟩ := ih children hszc p.startOff indent off2 heq
              have hfin : annList raw (Md.node .heading p value children :: rest) off indent
                  = some (off', (if off < p.startOff then [Segment.markup (spaces (p.startOff - off)) none] else [])
                      ++ ((segsC ++ [mk0 "\n\n".data]) ++ segs2)) := by
                rw [annList.eq_def]
                simp only [max_eq_right hoff, haC, ha2]
              refine ⟨_, hfin, ?_⟩
              simp only [srcLen_append, srcLen_pad off p.startOff hoff, srcLen_cons,
                srcLen_mk0, srcLen_nil]
              omega
            · -- inlineCode node: markup for the whole span interpreted as the code
              split at heq
              · rename_i hse
                simp only [Option.some.injEq] at heq
                subst heq
                have hfin : annList raw (Md.node .inlineCode p value children :: rest) off indent
                    = some (off', (if off < p.startOff then [Segment.markup (spaces (p.startOff - off)) none] else [])
                        ++ ([Segment.markup (spaces (p.endOff - p.startOff)) (some value)]
                          ++ segs2)) := by
                  rw [annList.eq_def]
                  simp only [ha2]
                refine ⟨_, hfin, ?_⟩
                simp only [srcLen_append, srcLen_pad off p.startOff hoff, srcLen_cons,
                  srcLen_spaces_markup, srcLen_nil]
                omega
              · exact absurd heq (by simp)
            · -- blockquote node
              split at heq
              · simp only [Option.some.injEq] at heq
                subst heq
                have hfin : annList raw (Md.node .blockquote p value [] :: rest) off indent
                    = some (off', (if off < p.startOff then [Segment.markup (spaces (p.startOff - off)) none] else []) ++ ([] ++ segs2)) := by
                  rw [annList.eq_def]
                  simp only [max_eq_right hoff, ha2]
                refine ⟨_, hfin, ?_⟩
                simp only [srcLen_append, srcLen_pad off p.startOff hoff, srcLen_nil]
                omega
              · rename_i c0 cs
                obtain ⟨segsC, haC, hsC⟩ := ih (c0 :: cs) hszc p.startOff (c0.col - 1) off2 heq
                have hfin : annList raw (Md.node .blockquote p value (c0 :: cs) :: rest) off indent
                    = some (off', (if off < p.startOff then [Segment.markup (spaces (p.startOff - off)) none] else []) ++ (segsC ++ segs2)) := by
                  rw [annList.eq_def]
                  simp only [max_eq_right hoff, haC, ha2]
                refine ⟨_, hfin, ?_⟩
                simp only [srcLen_append, srcLen_pad off p.startOff hoff]
                omega
            · -- hard line break: markup for its span interpreted as a newline
              split at heq
              · rename_i hse
                simp only [Option.some.injEq] at heq
                subst heq
                have hfin : annList raw (Md.node .hardBreak p value children :: rest) off indent
                    = some (off', (if off < p.startOff then [Segment.markup (spaces (p.startOff - off)) none] else [])
                        ++ ([Segment.markup (spaces (p.endOff - p.startOff)) (some "\n".data)]
                          ++ segs2)) := by
                  rw [annList.eq_def]
                  simp only [ha2]
                refine ⟨_, hfin, ?_⟩
                simp only [srcLen_append, srcLen_pad off p.startOff hoff, srcLen_cons,
                  srcLen_spaces_markup, srcLen_nil]
                omega
              · exact absurd heq (by simp)
            · -- paragraph node
              split at heq
              · simp only [Option.some.injEq] at heq
                subst heq
                have hfin : annList raw (Md.node .paragraph p value [] :: rest) off indent
                    = some (off', (if off < p.startOff then [Segment.markup (spaces (p.startOff - off)) none] else []) ++ ([mk0 "\n\n".data] ++ segs2)) := by
                  rw [annList.eq_def]
                  simp only [max_eq_right hoff, ha2]
                refine ⟨_, hfin, ?_⟩
                simp only [srcLen_append, srcLen_pad off p.startOff hoff, srcLen_cons,
                  srcLen_mk0, srcLen_nil]
                omega
              · rename_i c0 cs
                obtain ⟨segsC, haC, hsC⟩ := ih (c0 :: cs) hszc p.startOff (c0.col - 1) off2 heq
                have hfin : annList raw (Md.node .paragraph p value (c0 :: cs) :: rest) off indent
                    = some (off', (if off < p.startOff then [Segment.markup (spaces (p.startOff - off)) none] else [])
                        ++ ((mk0 "\n\n".data :: segsC ++ [mk0 "\n\n".data]) ++ segs2)) := by
                  rw [annList.eq_def]
                  simp only [max_eq_right hoff, haC, ha2]
                refine ⟨_, hfin, ?_⟩
                simp only [srcLen_append, srcLen_pad off p.startOff hoff, srcLen_cons,
                  srcLen_mk0, srcLen_nil]
                omega
            · -- listItem node
              split at heq
              · simp only [Option.some.injEq] at heq
                subst heq
                have hfin : annList raw (Md.node .listItem p value [] :: rest) off indent
                    = some (off', (if off < p.startOff then [Segment.markup (spaces (p.startOff - off)) none] else []) ++ ([] ++ segs2)) := by
                  rw [annList.eq_def]
                  simp only [max_eq_right hoff, ha2]
                refine ⟨_, hfin, ?_⟩
                simp only [srcLen_append, srcLen_pad off p.startOff hoff, srcLen_nil]
                omega
              · rename_i c0 cs
                obtain ⟨segsC, haC, hsC⟩ := ih (c0 :: cs) hszc p.startOff (c0.col - 1) off2 heq
                have hfin : annList raw (Md.node .listItem p value (c0 :: cs) :: rest) off indent
                    = some (off', (if off < p.startOff then [Segment.markup (spaces (p.startOff - off)) none] else []) ++ ((mk0 "• ".data :: segsC) ++ segs2)) := by
                  rw [annList.eq_def]
                  simp only [max_eq_right hoff, haC, ha2]
                refine ⟨_, hfin, ?_⟩
                simp only [srcLen_append, srcLen_pad off p.startOff hoff, srcLen_cons,
                  srcLen_mk0]
                omega
            · -- link node: always recurses (an empty children array is truthy)
              obtain ⟨segsC, haC, hsC⟩ := ih children hszc p.startOff indent off2 heq
              have hfin : annList raw (Md.node .link p value children :: rest) off indent
                  = some (off', (if off < p.startOff then [Segment.markup (spaces (p.startOff - off)) none] else []) ++ (segsC ++ segs2)) := by
                rw [annList.eq_def]
                simp only [max_eq_right hoff, haC, ha2]
              refine ⟨_, hfin, ?_⟩
              simp only [srcLen_append, srcLen_pad off p.startOff hoff]
              omega
            · -- table node: leading newline markup, then recurse
              obtain ⟨segsC, haC, hsC⟩ := ih children hszc p.startOff indent off2 heq
              have hfin : annList raw (Md.node .table p value children :: rest) off indent
                  = some (off', (if off < p.startOff then [Segment.markup (spaces (p.startOff - off)) none] else []) ++ ((mk0 "\n".data :: segsC) ++ segs2)) := by
                rw [annList.eq_def]
                simp only [max_eq_right hoff, haC, ha2]
              refine ⟨_, hfin, ?_⟩
              simp only [srcLen_append, srcLen_pad off p.startOff hoff, srcLen_cons,
                srcLen_mk0]
              omega
            · -- tableRow node: recurse, then a separator markup
              obtain ⟨segsC, haC, hsC⟩ := ih children hszc p.startOff indent off2 heq
              have hfin : annList raw (Md.node .tableRow p value children :: rest) off indent
                  = some (off', (if off < p.startOff then [Segment.markup (spaces (p.startOff - off)) none] else []) ++ ((segsC ++ [mk0 "\n\n".data]) ++ segs2)) := by
                rw [annList.eq_def]
                simp only [max_eq_right hoff, haC, ha2]
              refine ⟨_, hfin, ?_⟩
              simp only [srcLen_append, srcLen_pad off p.startOff hoff, srcLen_cons,
                srcLen_mk0, srcLen_nil]
              omega
            · -- tableCell node: recurse, then a separator markup
              obtain ⟨segsC, haC, hsC⟩ := ih children hszc p.startOff indent off2 heq
              have hfin : annList raw (Md.node .tableCell p value children :: rest) off indent
                  = some (off', (if off < p.startOff then [Segment.markup (spaces (p.startOff - off)) none] else []) ++ ((segsC ++ [mk0 "\n".data]) ++ segs2)) := by
                rw [annList.eq_def]
                simp only [max_eq_right hoff, haC, ha2]
              refine ⟨_, hfin, ?_⟩
              simp only [srcLen_append, srcLen_pad off p.startOff hoff, srcLen_cons,
                srcLen_mk0, srcLen_nil]
              omega
            · -- thematic break: markup for its span interpreted as a blank line
              split at heq
              · rename_i hse
                simp only [Option.some.injEq] at heq
                subst heq
                have hfin : annList raw (Md.node .thematicBreak p value children :: rest) off indent
                    = some (off', (if off < p.startOff then [Segment.markup (spaces (p.startOff - off)) none] else [])
                        ++ ([Segment.markup (spaces (p.endOff - p.startOff)) (some "\n\n".data)]
                          ++ segs2)) := by
                  rw [annList.eq_def]
                  simp only [ha2]
                refine ⟨_, hfin, ?_⟩
                simp only [srcLen_append, srcLen_pad off p.startOff hoff, srcLen_cons,
                  srcLen_spaces_markup, srcLen_nil]
                omega
              · exact absurd heq (by simp)
        · rw [wfRun.eq_def] at hwf
          simp only [] at hwf
          rw [if_neg hoff] at hwf
          exact absurd hwf (by simp)


/-! ## Claim C2: what the segments' source lengths sum to -/

/-- Claim C2 counterexample: a document that is a single fenced code block
(source `"~~~\nx\n~~~"`, 9 characters; the code node spans the whole
document) produces no segments and a cursor of 0, so the segments' source
lengths sum to 0, not to the source length 9 — the code case emits nothing
and does not advance the cursor. -/
theorem annotate_code_block_loses_length :
    annList "~~~\nx\n~~~".data [Md.node .code ⟨0, 9, 1⟩ [] []] 0 0
      = some (0, []) ∧
    srcLen [] = 0 ∧ ("~~~\nx\n~~~".data).length = 9 ∧ (0 : Nat) ≠ 9 := by
  refine ⟨?_, rfl, rfl, by decide⟩
  simp [annList]

/-- Claim C2 (amended): for every position-well-formed node tree whose text
nodes render exactly their spans (no escape shrinkage), the segments' source
lengths sum to the cursor returned by the converter — not to `S.length`: the
cursor stops at the last node that advances it, and nodes such as code
blocks contribute nothing. -/
theorem annotate_sums_to_cursor (raw : Str) (nodes : List Md) (off' : Nat)
    (hwf : wfRun nodes 0 0 = some off') :
    ∃ segs, annList raw nodes 0 0 = some (off', segs) ∧ srcLen segs = off' := by
  obtain ⟨segs, h1, h2⟩ :=
    annList_srcLen raw (sizeOf nodes) nodes le_rfl 0 0 off' hwf
  exact ⟨segs, h1, by omega⟩

/-- Concrete instance of the amended claim C2: a paragraph containing the
text `"hello"` yields segments of total source length 5, the returned
cursor. -/
theorem annotate_sums_to_cursor_witness :
    ∃ segs, annList "hello".data
        [Md.node .paragraph ⟨0, 5, 1⟩ []
          [Md.node .text ⟨0, 5, 1⟩ "hello".data []]] 0 0
      = some (5, segs) ∧ srcLen segs = 5 :=
  annotate_sums_to_cursor "hello".data
    [Md.node .paragraph ⟨0, 5, 1⟩ [] [Md.node .text ⟨0, 5, 1⟩ "hello".data []]]
    5 (by simp [wfRun]; decide)

/-! ## Claim C3: the escape scan -/

/-- Claim C3 (code bug): the escape-scanning regex of the text case is
`/\\[[:punct:]]/g`, written for a POSIX `[[:punct:]]` class that
ECMAScript regular expressions do not support — in JavaScript it matches a
backslash, then one of the characters `[:punct`, then a literal closing
bracket.  On the source `"a \\*b\\* c"` (text node value `"a *b* c"`,
span 9, so the escape branch runs) it finds no match, and the raw slice —
backslashes included — is emitted as one text segment: the interpreted
content is `"a \\*b\\* c"`, not `"a *b* c"`, and no one-source-character
empty-interpretation markup is produced for the backslashes, contrary to the
code's own intent (`// Find escapes`, `// backslash character`). -/
theorem escape_scan_never_fires :
    annList "a \\*b\\* c".data
        [Md.node .text ⟨0, 9, 1⟩ "a *b* c".data []] 0 0
      = some (9, [Segment.text "a \\*b\\* c".data]) ∧
    findEsc "a \\*b\\* c".data 0 = [] ∧
    interp [Segment.text "a \\*b\\* c".data] = "a \\*b\\* c".data ∧
    "a \\*b\\* c".data ≠ "a *b* c".data := by
  refine ⟨?_, by decide, by decide, by decide⟩
  simp [annList]
  decide


end LTPlugin
